import Mathlib

/-!
# Verification of the terramate stack dependency resolver and code generator

This file gives a shallow embedding of the stack dependency graph resolver,
the selection filter, the cloud status filter, the code-generation header
check (`generate` package) and the token search (`lex` package) of the
terramate repository, and proves the properties stated in the specification.

The resolver, the selection filter and the cloud status filter are not part
of the source tree under inspection (only their tests are), so they are
modelled from the specification (sections 4.3, 4.4 and 6); the code
generation and token functions are translated directly from their sources.
-/

namespace Terramate

/-! ## Lexicographic order on paths

The spec fixes "the project's lexicographic path order" as the canonical
iteration order.  Paths are byte strings in Go; we compare the character
sequences of the Lean strings position by position. -/

/-- Lexicographic comparison of character lists by code point. -/
def lexLe : List Char → List Char → Bool
  | [], _ => true
  | _ :: _, [] => false
  | a :: as, b :: bs =>
    if a.toNat < b.toNat then true
    else if b.toNat < a.toNat then false
    else lexLe as bs

/-- Lexicographic order on paths (strings), as used by `sort.Strings` in Go. -/
def pathLe (a b : String) : Prop := lexLe a.data b.data = true

instance : DecidableRel pathLe := fun a b =>
  inferInstanceAs (Decidable (lexLe a.data b.data = true))

theorem lexLe_total : ∀ x y, lexLe x y = true ∨ lexLe y x = true
  | [], _ => .inl rfl
  | _ :: _, [] => .inr rfl
  | a :: as, b :: bs => by
    simp only [lexLe]
    rcases Nat.lt_trichotomy a.toNat b.toNat with h | h | h
    · exact .inl (by rw [if_pos h])
    · have h1 : ¬ a.toNat < b.toNat := by omega
      have h2 : ¬ b.toNat < a.toNat := by omega
      simp only [if_neg h1, if_neg h2]
      exact lexLe_total as bs
    · exact .inr (by rw [if_pos h])

theorem lexLe_antisymm : ∀ x y, lexLe x y = true → lexLe y x = true → x = y
  | [], [], _, _ => rfl
  | [], _ :: _, _, h2 => by simp [lexLe] at h2
  | _ :: _, [], h1, _ => by simp [lexLe] at h1
  | a :: as, b :: bs, h1, h2 => by
    simp only [lexLe] at h1 h2
    rcases Nat.lt_trichotomy a.toNat b.toNat with h | h | h
    · simp only [if_neg (show ¬ b.toNat < a.toNat by omega), if_pos h] at h2
      exact absurd h2 (by decide)
    · have hab : a = b := Char.ext (UInt32.ext h)
      have h1' : ¬ a.toNat < b.toNat := by omega
      have h2' : ¬ b.toNat < a.toNat := by omega
      simp only [if_neg h1', if_neg h2'] at h1 h2
      rw [hab, lexLe_antisymm as bs h1 h2]
    · simp only [if_neg (show ¬ a.toNat < b.toNat by omega), if_pos h] at h1
      exact absurd h1 (by decide)

theorem lexLe_trans : ∀ x y z, lexLe x y = true → lexLe y z = true → lexLe x z = true
  | [], _, _, _, _ => rfl
  | _ :: _, [], _, h1, _ => by simp [lexLe] at h1
  | _ :: _, _ :: _, [], _, h2 => by simp [lexLe] at h2
  | a :: as, b :: bs, c :: cs, h1, h2 => by
    simp only [lexLe] at h1 h2 ⊢
    rcases Nat.lt_trichotomy a.toNat b.toNat with hab | hab | hab
    · rcases Nat.lt_trichotomy b.toNat c.toNat with hbc | hbc | hbc
      · rw [if_pos (by omega)]
      · rw [if_pos (by omega)]
      · simp only [if_neg (show ¬ b.toNat < c.toNat by omega), if_pos hbc] at h2
        exact absurd h2 (by decide)
    · rcases Nat.lt_trichotomy b.toNat c.toNat with hbc | hbc | hbc
      · rw [if_pos (by omega)]
      · have nab : ¬ a.toNat < b.toNat := by omega
        have nba : ¬ b.toNat < a.toNat := by omega
        have nbc : ¬ b.toNat < c.toNat := by omega
        have ncb : ¬ c.toNat < b.toNat := by omega
        have nac : ¬ a.toNat < c.toNat := by omega
        have nca : ¬ c.toNat < a.toNat := by omega
        simp only [if_neg nab, if_neg nba] at h1
        simp only [if_neg nbc, if_neg ncb] at h2
        simp only [if_neg nac, if_neg nca]
        exact lexLe_trans as bs cs h1 h2
      · simp only [if_neg (show ¬ b.toNat < c.toNat by omega), if_pos hbc] at h2
        exact absurd h2 (by decide)
    · simp only [if_neg (show ¬ a.toNat < b.toNat by omega), if_pos hab] at h1
      exact absurd h1 (by decide)

instance : IsTotal String pathLe := ⟨fun a b => lexLe_total a.data b.data⟩

instance : IsTrans String pathLe := ⟨fun a b c => lexLe_trans a.data b.data c.data⟩

instance : IsAntisymm String pathLe :=
  ⟨fun a b h1 h2 => by
    have h := lexLe_antisymm a.data b.data h1 h2
    exact congrArg String.mk h⟩

/-- Sort a list of paths lexicographically (`sort.Strings` on stack paths). -/
def sortPaths (ps : List String) : List String := List.insertionSort pathLe ps

/-! ## Data model (spec section 3) -/

/-- Modelled from the spec: a Stack is a unit of work identified by its
canonical root-relative directory path, with its `after` list already
resolved to canonical stack paths by the Dependency Graph Builder.  The
builder itself (reference resolution) is external to the resolver. -/
structure Stack where
  path : String
  after : List String
deriving DecidableEq, Repr

/-- The registry invariant: stack paths are unique by construction
(they map 1:1 to filesystem directories). -/
def NodupPaths (g : List Stack) : Prop := (g.map Stack.path).Nodup

/-- Every `after` reference resolves to a stack of the registry; the graph
builder rejects unresolved references before ordering runs. -/
def WellFormed (g : List Stack) : Prop :=
  ∀ s ∈ g, ∀ a ∈ s.after, ∃ s', s' ∈ g ∧ s'.path = a

instance (g : List Stack) : Decidable (NodupPaths g) :=
  inferInstanceAs (Decidable ((g.map Stack.path).Nodup))

instance (g : List Stack) : Decidable (WellFormed g) :=
  inferInstanceAs (Decidable (∀ s ∈ g, ∀ a ∈ s.after, ∃ s', s' ∈ g ∧ s'.path = a))

/-- Find the stack with the given canonical path. -/
def lookupStack (g : List Stack) (p : String) : Option Stack :=
  g.find? (fun s => s.path == p)

/-- An edge `u → v` of the Dependency Graph: `u` must execute before `v`,
derived from `v`'s `after` list containing `u` (spec section 3). -/
def EdgeG (g : List Stack) (u v : String) : Prop :=
  ∃ s ∈ g, s.path = v ∧ u ∈ s.after

instance (g : List Stack) (u v : String) : Decidable (EdgeG g u v) :=
  inferInstanceAs (Decidable (∃ s ∈ g, s.path = v ∧ u ∈ s.after))

/-- A cycle: a nonempty edge-chained list of paths whose last element has an
edge back to its first element. -/
def IsCycle (g : List Stack) (c : List String) : Prop :=
  c ≠ [] ∧ List.Chain' (EdgeG g) c ∧ EdgeG g (c.getLastD "") (c.headD "")

instance (g : List Stack) (c : List String) : Decidable (IsCycle g c) :=
  inferInstanceAs
    (Decidable (c ≠ [] ∧ List.Chain' (EdgeG g) c ∧ EdgeG g (c.getLastD "") (c.headD "")))

/-- The graph contains at least one cycle. -/
def HasCycle (g : List Stack) : Prop := ∃ c, IsCycle g c

/-! ## The resolver (spec section 4.3)

Modelled from the spec: depth-first, dependency-first resolution.  The
resolver itself is not part of the inspected sources (only its tests are).
Stacks are visited in lexicographic path order; for each unvisited stack its
`after` list is visited in declared order before the stack itself is
emitted; a stack already emitted is skipped; reaching a stack on the active
recursion path is a Cycle Error.  Recursion is bounded by explicit fuel; we
prove below that the fuel supplied by `RunOrder` can never run out. -/

/-- Outcome of resolution: an execution plan or a structural error. -/
inductive RunResult where
  | ok (plan : List String)
  | cycleDetected (path : String)
  | unresolvedRef (path : String)
  | fuelExhausted
deriving DecidableEq, Repr

/-- Modelled from the spec: the depth-first visit of section 4.3.
`ps` are the paths still to visit at this level (in order), `inprog` the
active recursion path (most recent first), `done` the emission order so
far (earliest first). -/
def visitL (g : List Stack) : Nat → List String → List String → List String → RunResult
  | _, [], _, done => .ok done
  | 0, _ :: _, _, _ => .fuelExhausted
  | fuel + 1, p :: rest, inprog, done =>
    if p ∈ done then visitL g fuel rest inprog done
    else if p ∈ inprog then .cycleDetected p
    else
      match lookupStack g p with
      | none => .unresolvedRef p
      | some s =>
        match visitL g fuel s.after (p :: inprog) done with
        | .ok d1 => visitL g fuel rest inprog (d1 ++ [p])
        | .cycleDetected q => .cycleDetected q
        | .unresolvedRef q => .unresolvedRef q
        | .fuelExhausted => .fuelExhausted

/-- Total declared weight of the graph: one unit per stack plus one per
`after` entry.  Used to bound the recursion depth of the resolver. -/
def totalWeight (g : List Stack) : Nat :=
  (g.map (fun s => s.after.length + 1)).sum

/-- Fuel that provably suffices for a full resolution. -/
def planFuel (g : List Stack) : Nat := g.length + totalWeight g

/-- Modelled from the spec: the Cycle Detector & Order Resolver.  Consumes a
Dependency Graph and returns either an Execution Plan covering every node or
a structural error; candidate stacks are visited in lexicographic path
order. -/
def RunOrder (g : List Stack) : RunResult :=
  visitL g (planFuel g) (sortPaths (g.map Stack.path)) [] []

/-- Index of the first occurrence of a path in a plan. -/
def idxOf : List String → String → Nat
  | [], _ => 0
  | x :: t, a => if x = a then 0 else idxOf t a + 1

/-! ## Basic lemmas about indices and lookup -/

theorem idxOf_append_left {a : String} : ∀ {l : List String} (r : List String),
    a ∈ l → idxOf (l ++ r) a = idxOf l a
  | [], _, h => by cases h
  | x :: t, r, h => by
    by_cases hx : x = a
    · simp [idxOf, hx]
    · have ht : a ∈ t := by
        rcases List.mem_cons.mp h with h' | h'
        · exact absurd h'.symm hx
        · exact h'
      simp [idxOf, hx, idxOf_append_left r ht]

theorem idxOf_append_self {a : String} : ∀ {l : List String} (r : List String),
    a ∉ l → idxOf (l ++ a :: r) a = l.length
  | [], _, _ => by simp [idxOf]
  | x :: t, r, h => by
    have hx : x ≠ a := fun e => h (by simp [e])
    have ht : a ∉ t := fun e => h (List.mem_cons_of_mem _ e)
    simp [idxOf, hx, idxOf_append_self r ht]

theorem idxOf_lt_length {a : String} : ∀ {l : List String},
    a ∈ l → idxOf l a < l.length
  | [], h => by cases h
  | x :: t, h => by
    by_cases hx : x = a
    · simp [idxOf, hx]
    · have ht : a ∈ t := by
        rcases List.mem_cons.mp h with h' | h'
        · exact absurd h'.symm hx
        · exact h'
      simp [idxOf, hx]
      exact idxOf_lt_length ht

theorem lookupStack_mem {g : List Stack} {p : String} {s : Stack}
    (h : lookupStack g p = some s) : s ∈ g ∧ s.path = p := by
  refine ⟨List.mem_of_find?_eq_some h, ?_⟩
  have := List.find?_some h
  simpa using this

theorem lookupStack_self {g : List Stack} (hnd : NodupPaths g) {s : Stack}
    (hs : s ∈ g) : lookupStack g s.path = some s := by
  cases hfind : lookupStack g s.path with
  | none =>
    rw [lookupStack, List.find?_eq_none] at hfind
    exact absurd (by simp : (s.path == s.path) = true) (hfind s hs)
  | some s' =>
    obtain ⟨hs', hp'⟩ := lookupStack_mem hfind
    have := List.inj_on_of_nodup_map hnd hs' hs hp'
    rw [this]

/-! ## The resolver invariant -/

/-- The invariant of the emission order: no stack is emitted twice, and every
emitted stack's declared dependencies are emitted strictly before it. -/
def Inv (g : List Stack) (done : List String) : Prop :=
  done.Nodup ∧
  ∀ s ∈ g, s.path ∈ done → ∀ a ∈ s.after, a ∈ done ∧ idxOf done a < idxOf done s.path

theorem Inv.nil (g : List Stack) : Inv g [] :=
  ⟨List.nodup_nil, fun _ _ h => by cases h⟩

theorem Inv.push {g : List Stack} {done : List String} {p : String}
    (h : Inv g done) (hp : p ∉ done)
    (hafter : ∀ s ∈ g, s.path = p → ∀ a ∈ s.after, a ∈ done) :
    Inv g (done ++ [p]) := by
  constructor
  · rw [List.nodup_append]
    exact ⟨h.1, List.nodup_singleton p, by simpa using hp⟩
  · intro s hs hmem a ha
    rcases List.mem_append.mp hmem with hin | hone
    · obtain ⟨haold, hidx⟩ := h.2 s hs hin a ha
      refine ⟨List.mem_append_left _ haold, ?_⟩
      rw [idxOf_append_left _ haold, idxOf_append_left _ hin]
      exact hidx
    · have hsp : s.path = p := by simpa using hone
      have haold : a ∈ done := hafter s hs hsp a ha
      refine ⟨List.mem_append_left _ haold, ?_⟩
      rw [idxOf_append_left _ haold, hsp]
      have : idxOf (done ++ [p]) p = done.length := idxOf_append_self [] hp
      rw [this]
      exact idxOf_lt_length haold

/-- An `ok` result only ever appends to the emission order. -/
theorem visitL_extends {g : List Stack} :
    ∀ (fuel : Nat) (ps inprog done : List String) {plan : List String},
      visitL g fuel ps inprog done = .ok plan → ∃ t, plan = done ++ t := by
  intro fuel
  induction fuel with
  | zero =>
    intro ps inprog done plan h
    cases ps with
    | nil => exact ⟨[], by simpa [visitL] using (RunResult.ok.inj h).symm⟩
    | cons p rest => simp [visitL] at h
  | succ fuel ih =>
    intro ps inprog done plan h
    cases ps with
    | nil => exact ⟨[], by simpa [visitL] using (RunResult.ok.inj h).symm⟩
    | cons p rest =>
      by_cases hd : p ∈ done
      · simp only [visitL, if_pos hd] at h
        exact ih rest inprog done h
      · by_cases hip : p ∈ inprog
        · simp [visitL, hd, hip] at h
        · simp only [visitL, if_neg hd, if_neg hip] at h
          cases hlook : lookupStack g p with
          | none => rw [hlook] at h; cases h
          | some s =>
            rw [hlook] at h
            dsimp only at h
            cases hchild : visitL g fuel s.after (p :: inprog) done with
            | ok d1 =>
              rw [hchild] at h
              obtain ⟨t1, ht1⟩ := ih s.after (p :: inprog) done hchild
              obtain ⟨t2, ht2⟩ := ih rest inprog (d1 ++ [p]) h
              exact ⟨t1 ++ [p] ++ t2, by simp [ht2, ht1]⟩
            | cycleDetected q => rw [hchild] at h; cases h
            | unresolvedRef q => rw [hchild] at h; cases h
            | fuelExhausted => rw [hchild] at h; cases h

/-- Main invariant of successful resolution: the emission order satisfies
`Inv`, covers every requested path, and only contains paths that were either
already emitted, requested, or declared in some `after` list; no path of the
active recursion chain is ever emitted. -/
theorem visitL_ok_spec {g : List Stack} (hnd : NodupPaths g) :
    ∀ (fuel : Nat) (ps inprog done : List String) {plan : List String},
      visitL g fuel ps inprog done = .ok plan →
      Inv g done →
      (∀ q ∈ inprog, q ∉ done) →
      Inv g plan ∧ (∀ p ∈ ps, p ∈ plan) ∧
      (∀ q ∈ plan, q ∈ done ∨ q ∉ inprog) ∧
      (∀ q ∈ plan, q ∈ done ∨ q ∈ ps ∨ ∃ s ∈ g, q ∈ s.after) := by
  intro fuel
  induction fuel with
  | zero =>
    intro ps inprog done plan h hInv hpre
    cases ps with
    | nil =>
      have hde : done = plan := by simpa [visitL] using h
      subst hde
      refine ⟨hInv, ?_, ?_, ?_⟩
      · intro q hq; cases hq
      · intro q hq; exact Or.inl hq
      · intro q hq; exact Or.inl hq
    | cons p rest => simp [visitL] at h
  | succ fuel ih =>
    intro ps inprog done plan h hInv hpre
    cases ps with
    | nil =>
      have hde : done = plan := by simpa [visitL] using h
      subst hde
      refine ⟨hInv, ?_, ?_, ?_⟩
      · intro q hq; cases hq
      · intro q hq; exact Or.inl hq
      · intro q hq; exact Or.inl hq
    | cons p rest =>
      by_cases hd : p ∈ done
      · simp only [visitL, if_pos hd] at h
        obtain ⟨hI, hcov, hesc, horig⟩ := ih rest inprog done h hInv hpre
        obtain ⟨t, ht⟩ := visitL_extends fuel rest inprog done h
        refine ⟨hI, ?_, hesc, ?_⟩
        · intro q hq
          rcases List.mem_cons.mp hq with hq | hq
          · subst hq; rw [ht]; exact List.mem_append_left _ hd
          · exact hcov q hq
        · intro q hq
          rcases horig q hq with h' | h' | h'
          · exact .inl h'
          · exact .inr (.inl (List.mem_cons_of_mem _ h'))
          · exact .inr (.inr h')
      · by_cases hip : p ∈ inprog
        · simp [visitL, hd, hip] at h
        · simp only [visitL, if_neg hd, if_neg hip] at h
          cases hlook : lookupStack g p with
          | none => rw [hlook] at h; cases h
          | some s =>
            rw [hlook] at h
            dsimp only at h
            obtain ⟨hsmem, hsp⟩ := lookupStack_mem hlook
            cases hchild : visitL g fuel s.after (p :: inprog) done with
            | ok d1 =>
              rw [hchild] at h
              have hpre1 : ∀ q ∈ p :: inprog, q ∉ done := by
                intro q hq
                rcases List.mem_cons.mp hq with hq | hq
                · subst hq; exact hd
                · exact hpre q hq
              obtain ⟨hI1, hcov1, hesc1, horig1⟩ :=
                ih s.after (p :: inprog) done hchild hInv hpre1
              have hpd1 : p ∉ d1 := by
                intro hpd
                rcases hesc1 p hpd with h' | h'
                · exact hd h'
                · exact h' (List.mem_cons_self p inprog)
              have hIpush : Inv g (d1 ++ [p]) := by
                refine hI1.push hpd1 ?_
                intro s' hs' hsp' a ha
                have : s' = s :=
                  List.inj_on_of_nodup_map hnd hs' hsmem (by rw [hsp', hsp])
                subst this
                exact hcov1 a ha
              have hpre2 : ∀ q ∈ inprog, q ∉ d1 ++ [p] := by
                intro q hq hmem
                rcases List.mem_append.mp hmem with hm | hm
                · rcases hesc1 q hm with h' | h'
                  · exact hpre q hq h'
                  · exact h' (List.mem_cons_of_mem _ hq)
                · have : q = p := by simpa using hm
                  subst this; exact hip hq
              obtain ⟨hI2, hcov2, hesc2, horig2⟩ :=
                ih rest inprog (d1 ++ [p]) h hIpush hpre2
              obtain ⟨t2, ht2⟩ := visitL_extends fuel rest inprog (d1 ++ [p]) h
              refine ⟨hI2, ?_, ?_, ?_⟩
              · intro q hq
                rcases List.mem_cons.mp hq with hq | hq
                · subst hq
                  rw [ht2]
                  exact List.mem_append_left _ (List.mem_append_right _ (by simp))
                · exact hcov2 q hq
              · intro q hq
                rcases hesc2 q hq with h' | h'
                · rcases List.mem_append.mp h' with hm | hm
                  · rcases hesc1 q hm with h'' | h''
                    · exact .inl h''
                    · exact .inr (fun hc => h'' (List.mem_cons_of_mem _ hc))
                  · have : q = p := by simpa using hm
                    subst this; exact .inr hip
                · exact .inr h'
              · intro q hq
                rcases horig2 q hq with h' | h' | h'
                · rcases List.mem_append.mp h' with hm | hm
                  · rcases horig1 q hm with h'' | h'' | h''
                    · exact .inl h''
                    · exact .inr (.inr ⟨s, hsmem, h''⟩)
                    · exact .inr (.inr h'')
                  · have : q = p := by simpa using hm
                    subst this
                    exact .inr (.inl (List.mem_cons_self _ rest))
                · exact .inr (.inl (List.mem_cons_of_mem _ h'))
                · exact .inr (.inr h')
            | cycleDetected q => rw [hchild] at h; cases h
            | unresolvedRef q => rw [hchild] at h; cases h
            | fuelExhausted => rw [hchild] at h; cases h

/-! ## Fuel sufficiency -/

/-- Remaining weight of the graph outside the active recursion chain. -/
def weightOutside (g : List Stack) (inprog : List String) : Nat :=
  (g.map (fun s => if s.path ∈ inprog then 0 else s.after.length + 1)).sum

theorem weightOutside_nil (g : List Stack) : weightOutside g [] = totalWeight g := by
  simp [weightOutside, totalWeight]

theorem weightOutside_mono (inprog inprog' : List String)
    (h : ∀ q ∈ inprog, q ∈ inprog') :
    ∀ g : List Stack, weightOutside g inprog' ≤ weightOutside g inprog
  | [] => le_refl _
  | s :: t => by
    simp only [weightOutside, List.map_cons, List.sum_cons]
    have ht := weightOutside_mono inprog inprog' h t
    simp only [weightOutside] at ht
    by_cases hs : s.path ∈ inprog
    · simp only [if_pos hs, if_pos (h _ hs)]
      omega
    · simp only [if_neg hs]
      have : (if s.path ∈ inprog' then 0 else s.after.length + 1) ≤ s.after.length + 1 := by
        split <;> omega
      omega

theorem weightOutside_lookup {p : String} {s : Stack} {inprog : List String}
    (hp : p ∉ inprog) :
    ∀ {g : List Stack}, lookupStack g p = some s →
      s.after.length + 1 + weightOutside g (p :: inprog) ≤ weightOutside g inprog := by
  intro g
  induction g with
  | nil => intro h; simp [lookupStack] at h
  | cons h t ih =>
    intro hlook
    by_cases hc : h.path = p
    · have hb : (h.path == p) = true := beq_iff_eq.mpr hc
      have : s = h := by
        simp only [lookupStack, List.find?, hb] at hlook
        exact (Option.some.inj hlook).symm
      subst this
      simp only [weightOutside, List.map_cons, List.sum_cons]
      rw [if_pos (show s.path ∈ p :: inprog by simp [hc]),
        if_neg (show s.path ∉ inprog by rw [hc]; exact hp)]
      have := weightOutside_mono inprog (p :: inprog) (fun q hq => List.mem_cons_of_mem p hq) t
      simp only [weightOutside] at this
      omega
    · have hb : (h.path == p) = false := beq_eq_false_iff_ne.mpr hc
      have hlook' : lookupStack t p = some s := by
        simpa only [lookupStack, List.find?, hb] using hlook
      have := ih hlook'
      simp only [weightOutside, List.map_cons, List.sum_cons] at *
      have hmem : (h.path ∈ p :: inprog) ↔ (h.path ∈ inprog) := by
        simp [List.mem_cons, hc]
      by_cases hin : h.path ∈ inprog
      · rw [if_pos hin, if_pos (hmem.mpr hin)]
        omega
      · rw [if_neg hin, if_neg (fun hx => hin (hmem.mp hx))]
        omega

/-- With fuel at least the pending-list length plus the remaining graph
weight, the resolver never exhausts its fuel. -/
theorem visitL_no_fuel {g : List Stack} :
    ∀ (fuel : Nat) (ps inprog done : List String),
      ps.length + weightOutside g inprog ≤ fuel →
      visitL g fuel ps inprog done ≠ .fuelExhausted := by
  intro fuel
  induction fuel with
  | zero =>
    intro ps inprog done hb
    cases ps with
    | nil => simp [visitL]
    | cons p rest => simp at hb
  | succ fuel ih =>
    intro ps inprog done hb
    cases ps with
    | nil => simp [visitL]
    | cons p rest =>
      simp only [List.length_cons] at hb
      by_cases hd : p ∈ done
      · simp only [visitL, if_pos hd]
        exact ih rest inprog done (by omega)
      · by_cases hip : p ∈ inprog
        · simp [visitL, hd, hip]
        · simp only [visitL, if_neg hd, if_neg hip]
          cases hlook : lookupStack g p with
          | none => simp
          | some s =>
            dsimp only
            have hw := weightOutside_lookup hip hlook
            cases hchild : visitL g fuel s.after (p :: inprog) done with
            | ok d1 => exact ih rest inprog (d1 ++ [p]) (by omega)
            | cycleDetected q => simp
            | unresolvedRef q => simp
            | fuelExhausted =>
              exact absurd hchild (ih s.after (p :: inprog) done (by omega))

/-! ## Error soundness -/

theorem getLastD_concat (p : String) : ∀ (l : List String) (d : String), (l ++ [p]).getLastD d = p
  | [], _ => rfl
  | x :: t, d => by
    rw [List.cons_append, List.getLastD_cons, getLastD_concat p t x]

/-- A Cycle Error is only ever reported when the graph really has a cycle. -/
theorem visitL_cycle_sound {g : List Stack} :
    ∀ (fuel : Nat) (ps inprog done : List String) {q : String},
      visitL g fuel ps inprog done = .cycleDetected q →
      List.Chain' (EdgeG g) inprog →
      (∀ p ∈ ps, ∀ h t, inprog = h :: t → EdgeG g p h) →
      HasCycle g := by
  intro fuel
  induction fuel with
  | zero =>
    intro ps inprog done q h _ _
    cases ps with
    | nil => simp [visitL] at h
    | cons p rest => simp [visitL] at h
  | succ fuel ih =>
    intro ps inprog done q h hchain hcond
    cases ps with
    | nil => simp [visitL] at h
    | cons p rest =>
      by_cases hd : p ∈ done
      · simp only [visitL, if_pos hd] at h
        exact ih rest inprog done h hchain (fun p' hp' => hcond p' (List.mem_cons_of_mem _ hp'))
      · by_cases hip : p ∈ inprog
        · -- the revisited in-progress stack closes a real cycle
          obtain ⟨pre, suf, hsplit⟩ := List.append_of_mem hip
          cases hin : inprog with
          | nil => rw [hin] at hip; cases hip
          | cons h0 t0 =>
            have hedge : EdgeG g p h0 :=
              hcond p (List.mem_cons_self p rest) h0 t0 hin
            refine ⟨pre ++ [p], ?_, ?_, ?_⟩
            · simp
            · refine hchain.prefix ?_
              exact ⟨suf, by simp [hsplit]⟩
            · rw [getLastD_concat]
              cases hpre : pre with
              | nil =>
                have : inprog = p :: suf := by rw [hsplit, hpre]; rfl
                rw [hin] at this
                have hp0 : h0 = p := (List.cons.inj this).1
                simpa [hpre, hp0] using hedge
              | cons a pre' =>
                have : inprog = a :: (pre' ++ p :: suf) := by rw [hsplit, hpre]; rfl
                rw [hin] at this
                have ha0 : h0 = a := (List.cons.inj this).1
                simpa [hpre, ha0] using hedge
        · simp only [visitL, if_neg hd, if_neg hip] at h
          cases hlook : lookupStack g p with
          | none => rw [hlook] at h; cases h
          | some s =>
            rw [hlook] at h
            dsimp only at h
            obtain ⟨hsmem, hsp⟩ := lookupStack_mem hlook
            have hchain' : List.Chain' (EdgeG g) (p :: inprog) := by
              rw [List.chain'_cons']
              refine ⟨?_, hchain⟩
              intro y hy
              cases hin : inprog with
              | nil => rw [hin] at hy; cases hy
              | cons h0 t0 =>
                rw [hin] at hy
                have hy' : y = h0 := (show h0 = y by simpa using hy).symm
                subst hy'
                exact hcond p (List.mem_cons_self p rest) y t0 hin
            have hcond' : ∀ a ∈ s.after, ∀ h t, p :: inprog = h :: t → EdgeG g a h := by
              intro a ha h' t' he
              have : h' = p := ((List.cons.inj he).1).symm
              subst this
              exact ⟨s, hsmem, hsp, ha⟩
            cases hchild : visitL g fuel s.after (p :: inprog) done with
            | ok d1 =>
              rw [hchild] at h
              exact ih rest inprog (d1 ++ [p]) h hchain
                (fun p' hp' => hcond p' (List.mem_cons_of_mem _ hp'))
            | cycleDetected q' =>
              exact ih s.after (p :: inprog) done hchild hchain' hcond'
            | unresolvedRef q' => rw [hchild] at h; cases h
            | fuelExhausted => rw [hchild] at h; cases h

/-- An Unresolved Reference Error cannot happen on a well-formed graph when
all requested paths resolve. -/
theorem visitL_unresolved_sound {g : List Stack} (hwf : WellFormed g) :
    ∀ (fuel : Nat) (ps inprog done : List String) {q : String},
      visitL g fuel ps inprog done = .unresolvedRef q →
      (∀ p ∈ ps, ∃ s', s' ∈ g ∧ s'.path = p) →
      False := by
  intro fuel
  induction fuel with
  | zero =>
    intro ps inprog done q h _
    cases ps with
    | nil => simp [visitL] at h
    | cons p rest => simp [visitL] at h
  | succ fuel ih =>
    intro ps inprog done q h hres
    cases ps with
    | nil => simp [visitL] at h
    | cons p rest =>
      by_cases hd : p ∈ done
      · simp only [visitL, if_pos hd] at h
        exact ih rest inprog done h (fun p' hp' => hres p' (List.mem_cons_of_mem _ hp'))
      · by_cases hip : p ∈ inprog
        · simp [visitL, hd, hip] at h
        · simp only [visitL, if_neg hd, if_neg hip] at h
          cases hlook : lookupStack g p with
          | none =>
            obtain ⟨s', hs', hp'⟩ := hres p (List.mem_cons_self p rest)
            rw [lookupStack, List.find?_eq_none] at hlook
            exact hlook s' hs' (by simp [hp'])
          | some s =>
            rw [hlook] at h
            dsimp only at h
            cases hchild : visitL g fuel s.after (p :: inprog) done with
            | ok d1 =>
              rw [hchild] at h
              exact ih rest inprog (d1 ++ [p]) h
                (fun p' hp' => hres p' (List.mem_cons_of_mem _ hp'))
            | cycleDetected q' => rw [hchild] at h; cases h
            | unresolvedRef q' =>
              obtain ⟨hsmem, _⟩ := lookupStack_mem hlook
              exact ih s.after (p :: inprog) done hchild
                (fun a ha => hwf s hsmem a ha)
            | fuelExhausted => rw [hchild] at h; cases h

/-! ## Assembled facts about RunOrder -/

theorem mem_sortPaths {a : String} {l : List String} : a ∈ sortPaths l ↔ a ∈ l :=
  (List.perm_insertionSort pathLe l).mem_iff

theorem length_sortPaths (l : List String) : (sortPaths l).length = l.length :=
  (List.perm_insertionSort pathLe l).length_eq

theorem runOrder_ok_spec {g : List Stack} (hnd : NodupPaths g) {plan : List String}
    (hok : RunOrder g = .ok plan) :
    Inv g plan ∧ (∀ s ∈ g, s.path ∈ plan) ∧
    (∀ q ∈ plan, (∃ s ∈ g, s.path = q) ∨ ∃ s ∈ g, q ∈ s.after) := by
  unfold RunOrder at hok
  obtain ⟨hI, hcov, _, horig⟩ :=
    visitL_ok_spec hnd (planFuel g) (sortPaths (g.map Stack.path)) [] [] hok
      (Inv.nil g) (by simp)
  refine ⟨hI, ?_, ?_⟩
  · intro s hs
    exact hcov _ (mem_sortPaths.mpr (List.mem_map_of_mem _ hs))
  · intro q hq
    rcases horig q hq with h | h | h
    · cases h
    · left
      obtain ⟨s, hs, he⟩ := List.mem_map.mp (mem_sortPaths.mp h)
      exact ⟨s, hs, he⟩
    · right; exact h

theorem runOrder_not_fuel (g : List Stack) : RunOrder g ≠ .fuelExhausted := by
  unfold RunOrder
  apply visitL_no_fuel
  rw [length_sortPaths, List.length_map, weightOutside_nil]
  exact le_refl _

theorem runOrder_not_unresolved {g : List Stack} (hwf : WellFormed g) (q : String) :
    RunOrder g ≠ .unresolvedRef q := by
  intro h
  unfold RunOrder at h
  refine visitL_unresolved_sound hwf (planFuel g) _ [] [] h ?_
  intro p hp
  obtain ⟨s, hs, he⟩ := List.mem_map.mp (mem_sortPaths.mp hp)
  exact ⟨s, hs, he⟩

theorem runOrder_cycle_sound {g : List Stack} {q : String}
    (h : RunOrder g = .cycleDetected q) : HasCycle g := by
  unfold RunOrder at h
  exact visitL_cycle_sound (planFuel g) _ [] [] h List.chain'_nil
    (fun p _ h t he => by cases he)

theorem getLastD_indep : ∀ (y : String) (t : List String) (d d' : String),
    (y :: t).getLastD d = (y :: t).getLastD d'
  | _, [], _, _ => rfl
  | _, _ :: _, _, _ => by simp only [List.getLastD_cons]

theorem edge_idx {g : List Stack} {plan : List String}
    (hI : Inv g plan) (hcov : ∀ s ∈ g, s.path ∈ plan) {u v : String}
    (he : EdgeG g u v) : idxOf plan u < idxOf plan v := by
  obtain ⟨s, hs, hsv, hu⟩ := he
  have := (hI.2 s hs (hcov s hs) u hu).2
  rwa [hsv] at this

theorem chain_idx_le {g : List Stack} {plan : List String}
    (hI : Inv g plan) (hcov : ∀ s ∈ g, s.path ∈ plan) :
    ∀ (c : List String) (x : String), List.Chain' (EdgeG g) (x :: c) →
      idxOf plan x ≤ idxOf plan ((x :: c).getLastD "") := by
  intro c
  induction c with
  | nil => intro x _; exact le_refl _
  | cons y t ih =>
    intro x hchain
    rw [List.chain'_cons] at hchain
    have h1 : idxOf plan x < idxOf plan y := edge_idx hI hcov hchain.1
    have h2 := ih y hchain.2
    have he : ((x :: y :: t).getLastD "") = ((y :: t).getLastD "") := by
      rw [List.getLastD_cons]
      exact getLastD_indep y t x ""
    rw [he]
    omega

/-! ## Claim C1: topological validity -/

/-- C1: for every dependency graph that resolves successfully, the plan is
topologically valid: for every edge `u → v` (`v` declares `u` in its `after`
list) with both endpoints present in the plan, `u` appears at a strictly
smaller index than `v`. -/
theorem runOrder_topological (g : List Stack) (plan : List String) (u v : Stack)
    (hnd : NodupPaths g) (hok : RunOrder g = .ok plan)
    (hu : u ∈ g) (hv : v ∈ g) (hedge : u.path ∈ v.after)
    (hup : u.path ∈ plan) (hvp : v.path ∈ plan) :
    idxOf plan u.path < idxOf plan v.path := by
  obtain ⟨hI, _, _⟩ := runOrder_ok_spec hnd hok
  exact (hI.2 v hv hvp u.path hedge).2

/-- Witness for C1 at the two-stack chain of the test suite. -/
theorem runOrder_topological_witness :
    idxOf ["stack-a", "stack-b"] "stack-a" < idxOf ["stack-a", "stack-b"] "stack-b" :=
  runOrder_topological [⟨"stack-a", []⟩, ⟨"stack-b", ["stack-a"]⟩]
    ["stack-a", "stack-b"] ⟨"stack-a", []⟩ ⟨"stack-b", ["stack-a"]⟩
    (by decide) (by decide) (by decide) (by decide) (by decide) (by decide) (by decide)

/-! ## Claim C2: cycle rejection -/

/-- C2: every well-formed graph containing a cycle (including the self-loop
produced by a stack whose `after` list resolves to its own path) makes the
resolver fail with a Cycle Error; no plan is ever produced. -/
theorem runOrder_cycle_error (g : List Stack)
    (hnd : NodupPaths g) (hwf : WellFormed g) (hcyc : HasCycle g) :
    ∃ q, RunOrder g = .cycleDetected q := by
  cases hres : RunOrder g with
  | ok plan =>
    exfalso
    obtain ⟨hI, hcov, _⟩ := runOrder_ok_spec hnd hres
    obtain ⟨c, hcne, hchain, hback⟩ := hcyc
    cases c with
    | nil => exact hcne rfl
    | cons x t =>
      have h1 : idxOf plan x ≤ idxOf plan ((x :: t).getLastD "") :=
        chain_idx_le hI hcov t x hchain
      have h2 : idxOf plan ((x :: t).getLastD "") < idxOf plan ((x :: t).headD "") :=
        edge_idx hI hcov hback
      simp only [List.headD_cons] at h2
      omega
  | cycleDetected q => exact ⟨q, rfl⟩
  | unresolvedRef q => exact absurd hres (runOrder_not_unresolved hwf q)
  | fuelExhausted => exact absurd hres (runOrder_not_fuel g)

/-- Witness for C2 at the self-loop of the test suite (`stack-a` after
itself, as produced by `after=["."]` or `after=["../stack-a"]`). -/
theorem runOrder_cycle_error_witness :
    ∃ q, RunOrder [⟨"/stack-a", ["/stack-a"]⟩] = .cycleDetected q :=
  runOrder_cycle_error [⟨"/stack-a", ["/stack-a"]⟩] (by decide) (by decide)
    ⟨["/stack-a"], by simp, List.chain'_singleton _, by decide⟩

/-! ## Claim C6: totality -/

/-- C6: for every well-formed acyclic dependency graph the resolver returns a
plan in which every stack of the registry appears exactly once. -/
theorem runOrder_total (g : List Stack)
    (hnd : NodupPaths g) (hwf : WellFormed g) (hacyc : ¬ HasCycle g) :
    ∃ plan, RunOrder g = .ok plan ∧ ∀ s ∈ g, plan.count s.path = 1 := by
  cases hres : RunOrder g with
  | ok plan =>
    obtain ⟨hI, hcov, _⟩ := runOrder_ok_spec hnd hres
    exact ⟨plan, rfl, fun s hs => List.count_eq_one_of_mem hI.1 (hcov s hs)⟩
  | cycleDetected q => exact absurd (runOrder_cycle_sound hres) hacyc
  | unresolvedRef q => exact absurd hres (runOrder_not_unresolved hwf q)
  | fuelExhausted => exact absurd hres (runOrder_not_fuel g)

/-- Witness for C6 on a two-stack acyclic registry. -/
theorem runOrder_total_witness :
    ∃ plan, RunOrder [⟨"/s1", []⟩, ⟨"/s2", []⟩] = .ok plan ∧
      ∀ s ∈ [(⟨"/s1", []⟩ : Stack), ⟨"/s2", []⟩], plan.count s.path = 1 := by
  refine runOrder_total _ (by decide) (by decide) ?_
  rintro ⟨c, hne, hchain, hback⟩
  obtain ⟨s, hs, hsv, hu⟩ := hback
  rcases (by simpa using hs : s = (⟨"/s1", []⟩ : Stack) ∨ s = ⟨"/s2", []⟩) with h | h <;>
    subst h <;> simp at hu

/-! ## Claim C5: lexicographic order of independent stacks -/

/-- A path that appears in no stack's `after` list. -/
def Unreferenced (g : List Stack) (p : String) : Prop := ∀ s ∈ g, p ∉ s.after

instance (g : List Stack) (p : String) : Decidable (Unreferenced g p) :=
  inferInstanceAs (Decidable (∀ s ∈ g, p ∉ s.after))

/-- Processing a concatenated pending list is processing the first part and
then the second, with the fuel split accordingly. -/
theorem visitL_append {g : List Stack} :
    ∀ (l1 : List String) (f : Nat) (l2 inprog done : List String),
      visitL g (l1.length + f) (l1 ++ l2) inprog done =
        match visitL g (l1.length + f) l1 inprog done with
        | .ok d' => visitL g f l2 inprog d'
        | r => r := by
  intro l1
  induction l1 with
  | nil =>
    intro f l2 inprog done
    simp [visitL]
  | cons p t ih =>
    intro f l2 inprog done
    rw [show (p :: t).length + f = (t.length + f) + 1 by simp; omega]
    rw [List.cons_append]
    by_cases hd : p ∈ done
    · simp only [visitL, if_pos hd]
      exact ih f l2 inprog done
    · by_cases hip : p ∈ inprog
      · simp [visitL, hd, hip]
      · simp only [visitL, if_neg hd, if_neg hip]
        cases hlook : lookupStack g p with
        | none => simp
        | some s =>
          dsimp only
          cases hchild : visitL g (t.length + f) s.after (p :: inprog) done with
          | ok d1 => exact ih f l2 inprog (d1 ++ [p])
          | cycleDetected q => rfl
          | unresolvedRef q => rfl
          | fuelExhausted => rfl

/-- Splitting a sorted duplicate-free list at the later of two members. -/
theorem sorted_split {l : List String} (hs : List.Sorted pathLe l) (hnd : l.Nodup)
    {u v : String} (hu : u ∈ l) (hv : v ∈ l) (hle : pathLe u v) (hne : u ≠ v) :
    ∃ A B, l = A ++ v :: B ∧ u ∈ A ∧ v ∉ A := by
  obtain ⟨A, B, hsplit⟩ := List.append_of_mem hv
  subst hsplit
  have hdisj := (List.nodup_append.mp hnd).2.2
  refine ⟨A, B, rfl, ?_, fun hvA => hdisj hvA (List.mem_cons_self v B)⟩
  rcases List.mem_append.mp hu with h | h
  · exact h
  · rcases List.mem_cons.mp h with h | h
    · exact absurd h hne
    · exfalso
      have hpw := (List.pairwise_append.mp hs).2.1
      have hvu : pathLe v u := (List.pairwise_cons.mp hpw).1 u h
      exact hne (IsAntisymm.antisymm u v hle hvu)

/-- C5: stacks with no ordering relationship to any other stack (empty
`after` list and referenced by no stack) appear in the full plan in
lexicographic path order; in particular the six unconstrained stacks
`1,2,3,batatinha,boom,frita` of the test suite resolve to exactly that
lexicographic order. -/
theorem runOrder_independent_lex :
    (∀ (g : List Stack) (plan : List String) (u v : Stack),
      NodupPaths g → RunOrder g = .ok plan → u ∈ g → v ∈ g →
      u.after = [] → v.after = [] →
      Unreferenced g u.path → Unreferenced g v.path →
      pathLe u.path v.path → u.path ≠ v.path →
      idxOf plan u.path < idxOf plan v.path) ∧
    RunOrder [⟨"batatinha", []⟩, ⟨"frita", []⟩, ⟨"1", []⟩,
        ⟨"2", []⟩, ⟨"3", []⟩, ⟨"boom", []⟩] =
      .ok ["1", "2", "3", "batatinha", "boom", "frita"] := by
  constructor
  · intro g plan u v hnd hok hu hv hua hva huref hvref hle hne
    have hsorted : List.Sorted pathLe (sortPaths (g.map Stack.path)) :=
      List.sorted_insertionSort pathLe _
    have hspnd : (sortPaths (g.map Stack.path)).Nodup :=
      ((List.perm_insertionSort pathLe (g.map Stack.path)).symm).nodup hnd
    have husp : u.path ∈ sortPaths (g.map Stack.path) :=
      mem_sortPaths.mpr (List.mem_map_of_mem _ hu)
    have hvsp : v.path ∈ sortPaths (g.map Stack.path) :=
      mem_sortPaths.mpr (List.mem_map_of_mem _ hv)
    obtain ⟨A, B, hsplit, huA, hvA⟩ := sorted_split hsorted hspnd husp hvsp hle hne
    unfold RunOrder at hok
    have hlenf : planFuel g = A.length + (B.length + 1 + totalWeight g) := by
      have h1 : (sortPaths (g.map Stack.path)).length = g.length := by
        rw [length_sortPaths, List.length_map]
      rw [hsplit] at h1
      simp only [List.length_append, List.length_cons] at h1
      unfold planFuel
      omega
    rw [hsplit, hlenf, visitL_append] at hok
    cases hA : visitL g (A.length + (B.length + 1 + totalWeight g)) A [] [] with
    | ok dA =>
      rw [hA] at hok
      dsimp only at hok
      obtain ⟨hIA, hcovA, _, horigA⟩ :=
        visitL_ok_spec hnd _ A [] [] hA (Inv.nil g) (by simp)
      have hudA : u.path ∈ dA := hcovA u.path huA
      have hvdA : v.path ∉ dA := by
        intro hmem
        rcases horigA v.path hmem with h | h | h
        · cases h
        · exact hvA h
        · obtain ⟨s, hs, hvs⟩ := h
          exact hvref s hs hvs
      rw [show B.length + 1 + totalWeight g = (B.length + totalWeight g) + 1 by omega] at hok
      simp only [visitL, if_neg hvdA, if_neg (List.not_mem_nil v.path)] at hok
      rw [lookupStack_self hnd hv] at hok
      dsimp only at hok
      rw [hva] at hok
      simp only [visitL] at hok
      obtain ⟨t2, ht2⟩ := visitL_extends _ B [] (dA ++ [v.path]) hok
      rw [List.append_assoc] at ht2
      simp only [List.singleton_append] at ht2
      rw [ht2]
      rw [idxOf_append_left _ hudA, idxOf_append_self _ hvdA]
      exact idxOf_lt_length hudA
    | cycleDetected q => rw [hA] at hok; cases hok
    | unresolvedRef q => rw [hA] at hok; cases hok
    | fuelExhausted => rw [hA] at hok; cases hok
  · decide

/-- Witness for C5 at the six-stack example of the test suite. -/
theorem runOrder_independent_lex_witness :
    idxOf ["1", "2", "3", "batatinha", "boom", "frita"] "batatinha" <
      idxOf ["1", "2", "3", "batatinha", "boom", "frita"] "boom" :=
  runOrder_independent_lex.1
    [⟨"batatinha", []⟩, ⟨"frita", []⟩, ⟨"1", []⟩, ⟨"2", []⟩, ⟨"3", []⟩, ⟨"boom", []⟩]
    ["1", "2", "3", "batatinha", "boom", "frita"]
    ⟨"batatinha", []⟩ ⟨"boom", []⟩
    (by decide) (by decide) (by decide) (by decide) (by decide) (by decide)
    (by decide) (by decide) (by decide) (by decide)

/-! ## Claim C3: determinism

The resolver is invariant under re-ordering of the registry list, and the
two map-iterating code sites of the generator (`generateStackLocals` and
`sortedAttributes`) sort the attribute names before any externally
observable iteration, so their output is invariant under the (random) map
iteration order, modelled as an arbitrary permutation of an association
list. -/

theorem lookupStack_perm {g1 g2 : List Stack} (hperm : g1.Perm g2)
    (hnd : NodupPaths g1) (p : String) : lookupStack g1 p = lookupStack g2 p := by
  have hnd2 : NodupPaths g2 := (hperm.map Stack.path).nodup hnd
  cases h1 : lookupStack g1 p with
  | none =>
    rw [lookupStack, List.find?_eq_none] at h1
    rw [eq_comm, lookupStack, List.find?_eq_none]
    intro x hx
    exact h1 x (hperm.mem_iff.mpr hx)
  | some s =>
    obtain ⟨hs, hp⟩ := lookupStack_mem h1
    have hs2 : s ∈ g2 := hperm.mem_iff.mp hs
    have := lookupStack_self hnd2 hs2
    rw [hp] at this
    rw [this]

theorem visitL_congr {g1 g2 : List Stack}
    (hl : ∀ p, lookupStack g1 p = lookupStack g2 p) :
    ∀ (fuel : Nat) (ps inprog done : List String),
      visitL g1 fuel ps inprog done = visitL g2 fuel ps inprog done := by
  intro fuel
  induction fuel with
  | zero => intro ps inprog done; cases ps <;> simp [visitL]
  | succ fuel ih =>
    intro ps inprog done
    cases ps with
    | nil => simp [visitL]
    | cons p rest =>
      simp only [visitL]
      by_cases hd : p ∈ done
      · simp only [if_pos hd]; exact ih rest inprog done
      · simp only [if_neg hd]
        by_cases hip : p ∈ inprog
        · simp [hip]
        · simp only [if_neg hip]
          rw [← hl p]
          cases lookupStack g1 p with
          | none => rfl
          | some s =>
            dsimp only
            rw [ih s.after (p :: inprog) done]
            cases visitL g2 fuel s.after (p :: inprog) done with
            | ok d1 => exact ih rest inprog (d1 ++ [p])
            | cycleDetected q => rfl
            | unresolvedRef q => rfl
            | fuelExhausted => rfl

theorem sortPaths_perm_eq {l1 l2 : List String} (h : l1.Perm l2) :
    sortPaths l1 = sortPaths l2 := by
  unfold sortPaths
  exact @List.eq_of_perm_of_sorted String pathLe _ _ _
    ((List.perm_insertionSort pathLe l1).trans
      (h.trans (List.perm_insertionSort pathLe l2).symm))
    (List.sorted_insertionSort pathLe l1) (List.sorted_insertionSort pathLe l2)

theorem runOrder_perm {g1 g2 : List Stack} (hperm : g1.Perm g2)
    (hnd : NodupPaths g1) : RunOrder g1 = RunOrder g2 := by
  unfold RunOrder
  have hsort : sortPaths (g1.map Stack.path) = sortPaths (g2.map Stack.path) :=
    sortPaths_perm_eq (hperm.map _)
  have hfuel : planFuel g1 = planFuel g2 := by
    unfold planFuel totalWeight
    rw [hperm.length_eq, (hperm.map _).sum_eq]
  rw [hsort, hfuel]
  exact visitL_congr (lookupStack_perm hperm hnd) _ _ _ _

/-- The sorted attribute names of `generateStackLocals` (source
`part_000:151-156`): collect the map keys, then `sort.Strings` them before
iterating, to avoid generating code with random attribute order. -/
def sortedAttrNames {V : Type} (attrs : List (String × V)) : List String :=
  sortPaths (attrs.map Prod.fst)

/-- The externally observable emission of `generateStackLocals` (source
`part_000:130-169`): one `(name, value)` attribute write per sorted name,
the value looked up in the locals map. -/
def generateStackLocals {V : Type} (attrs : List (String × V)) :
    List (String × Option V) :=
  (sortedAttrNames attrs).map (fun n => (n, attrs.lookup n))

/-- `sortedAttributes` (source `part_000:264-279`): the attributes of an HCL
body in sorted name order. -/
def sortedAttributes {V : Type} (attrs : List (String × V)) : List (Option V) :=
  (sortedAttrNames attrs).map (fun n => attrs.lookup n)

theorem lookup_perm {V : Type} {l1 l2 : List (String × V)}
    (hperm : l1.Perm l2) (hnd : (l1.map Prod.fst).Nodup) (a : String) :
    l1.lookup a = l2.lookup a := by
  induction hperm with
  | nil => rfl
  | cons x h ih =>
    obtain ⟨k, v⟩ := x
    simp only [List.map_cons, List.nodup_cons] at hnd
    simp only [List.lookup]
    cases hak : a == k with
    | true => rfl
    | false => exact ih hnd.2
  | swap x y l =>
    obtain ⟨kx, vx⟩ := x
    obtain ⟨ky, vy⟩ := y
    simp only [List.map_cons, List.nodup_cons, List.mem_cons] at hnd
    have hne : ky ≠ kx := fun he => hnd.1 (Or.inl he)
    simp only [List.lookup]
    cases hy : a == ky with
    | true =>
      have hax : (a == kx) = false := by
        refine beq_eq_false_iff_ne.mpr fun he => ?_
        exact hne ((eq_of_beq hy).symm.trans he)
      rw [hax]
    | false =>
      cases hax : a == kx <;> rfl
  | trans h12 h23 ih12 ih23 =>
    have hnd2 := (h12.map Prod.fst).nodup hnd
    rw [ih12 hnd, ih23 hnd2]

theorem sortedAttrNames_perm {V : Type} {l1 l2 : List (String × V)}
    (hperm : l1.Perm l2) : sortedAttrNames l1 = sortedAttrNames l2 :=
  sortPaths_perm_eq (hperm.map _)

/-- C3: resolution is deterministic.  Resolving the same dependency graph
(up to discovery order, i.e. up to permutation of the registry) yields
identical plans, and the two map-shaped collections the generator iterates
(`generateStackLocals` attribute map and `sortedAttributes`) are sorted
before iteration, so their output does not depend on the map iteration
order. -/
theorem resolution_deterministic :
    (∀ (g1 g2 : List Stack), g1.Perm g2 → NodupPaths g1 →
      RunOrder g1 = RunOrder g2) ∧
    (∀ (V : Type) (a1 a2 : List (String × V)), a1.Perm a2 →
      (a1.map Prod.fst).Nodup → generateStackLocals a1 = generateStackLocals a2) ∧
    (∀ (V : Type) (a1 a2 : List (String × V)), a1.Perm a2 →
      (a1.map Prod.fst).Nodup → sortedAttributes a1 = sortedAttributes a2) := by
  refine ⟨fun g1 g2 hp hnd => runOrder_perm hp hnd, ?_, ?_⟩
  · intro V a1 a2 hperm hnd
    unfold generateStackLocals
    rw [sortedAttrNames_perm hperm]
    exact List.map_congr_left (fun n _ => by rw [lookup_perm hperm hnd n])
  · intro V a1 a2 hperm hnd
    unfold sortedAttributes
    rw [sortedAttrNames_perm hperm]
    exact List.map_congr_left (fun n _ => by rw [lookup_perm hperm hnd n])

/-- Witness for C3 at concrete permuted inputs. -/
theorem resolution_deterministic_witness :
    RunOrder [⟨"/a", []⟩, ⟨"/b", ["/a"]⟩] = RunOrder [⟨"/b", ["/a"]⟩, ⟨"/a", []⟩] ∧
    generateStackLocals [("x", 1), ("y", 2)] = generateStackLocals [("y", 2), ("x", 1)] ∧
    sortedAttributes [("x", 1), ("y", 2)] = sortedAttributes [("y", 2), ("x", 1)] :=
  ⟨resolution_deterministic.1 _ _ (List.Perm.swap _ _ _) (by decide),
   resolution_deterministic.2.1 Nat _ _ (List.Perm.swap _ _ _) (by decide),
   resolution_deterministic.2.2 Nat _ _ (List.Perm.swap _ _ _) (by decide)⟩

/-! ## Claims C4 and C7: the Selection Filter -/

/-- Modelled from the spec: the Selection Filter (section 4.4).  Given the
full Execution Plan and the Change Set it keeps exactly the stacks of the
change set, in plan order; an empty change set means "all stacks" and the
filter is the identity. -/
def filterChanged (plan : List String) (changed : List String) : List String :=
  if changed.isEmpty then plan else plan.filter (fun p => decide (p ∈ changed))

/-- C4: the Selection Filter never expands the change set: with a non-empty
change set the filtered plan contains exactly the plan stacks that are in
the change set — a stack absent from the change set is never inserted, even
if it is a graph dependency of an included stack — and with an empty change
set the filter is the identity. -/
theorem filterChanged_exact :
    (∀ (plan changed : List String), changed ≠ [] →
      ∀ x, x ∈ filterChanged plan changed ↔ x ∈ plan ∧ x ∈ changed) ∧
    (∀ plan : List String, filterChanged plan [] = plan) := by
  constructor
  · intro plan changed hne x
    unfold filterChanged
    rw [if_neg (by simpa [List.isEmpty_iff] using hne)]
    simp [List.mem_filter]
  · intro plan
    simp [filterChanged]

/-- Witness for C4 at the test scenario: plan `[stack2, stack]`, change set
`{stack}` (`stack` depends on unchanged `stack2`). -/
theorem filterChanged_exact_witness :
    ("stack2" ∈ filterChanged ["stack2", "stack"] ["stack"] ↔
      "stack2" ∈ ["stack2", "stack"] ∧ "stack2" ∈ ["stack"]) ∧
    filterChanged ["stack2", "stack"] [] = ["stack2", "stack"] :=
  ⟨filterChanged_exact.1 ["stack2", "stack"] ["stack"] (by decide) "stack2",
    filterChanged_exact.2 ["stack2", "stack"]⟩

/-- Filtering preserves the relative order of the surviving elements. -/
theorem filter_idxOf_mono :
    ∀ (l : List String) (p : String → Bool) (a b : String),
      a ∈ l.filter p → b ∈ l.filter p → idxOf l a < idxOf l b →
      idxOf (l.filter p) a < idxOf (l.filter p) b := by
  intro l
  induction l with
  | nil => intro p a b ha _ _; simp at ha
  | cons x t ih =>
    intro p a b ha hb hab
    by_cases hp : p x = true
    · rw [List.filter_cons_of_pos hp] at ha hb ⊢
      by_cases hxa : x = a
      · have hxb : x ≠ b := by
          intro hxb
          simp only [idxOf, if_pos hxa, if_pos hxb] at hab
          omega
        simp only [idxOf, if_pos hxa, if_neg hxb]
        omega
      · have hxb : x ≠ b := by
          intro hxb
          simp only [idxOf, if_neg hxa, if_pos hxb] at hab
          omega
        have hat : a ∈ t.filter p := by
          rcases List.mem_cons.mp ha with h | h
          · exact absurd h.symm hxa
          · exact h
        have hbt : b ∈ t.filter p := by
          rcases List.mem_cons.mp hb with h | h
          · exact absurd h.symm hxb
          · exact h
        simp only [idxOf, if_neg hxa, if_neg hxb] at hab ⊢
        have := ih p a b hat hbt (by omega)
        omega
    · rw [List.filter_cons_of_neg (by simpa using hp)] at ha hb ⊢
      have hxa : x ≠ a := by
        intro he
        exact hp (he ▸ (List.mem_filter.mp ha).2)
      have hxb : x ≠ b := by
        intro he
        exact hp (he ▸ (List.mem_filter.mp hb).2)
      simp only [idxOf, if_neg hxa, if_neg hxb] at hab
      exact ih p a b ha hb (by omega)

/-- C7: the Selection Filter preserves relative order.  For every resolved
plan and change set containing both a stack `v` and one of its declared
dependencies `u`, the filtered plan lists `u` strictly before `v`, in the
same relative order as the full plan. -/
theorem filterChanged_preserves_order (g : List Stack) (plan changed : List String)
    (u v : Stack) (hnd : NodupPaths g) (hok : RunOrder g = .ok plan)
    (hv : v ∈ g) (hedge : u.path ∈ v.after) (hvp : v.path ∈ plan)
    (hcne : changed ≠ []) (hucs : u.path ∈ changed) (hvcs : v.path ∈ changed) :
    idxOf (filterChanged plan changed) u.path <
      idxOf (filterChanged plan changed) v.path := by
  obtain ⟨hI, _, _⟩ := runOrder_ok_spec hnd hok
  obtain ⟨hup, hidx⟩ := hI.2 v hv hvp u.path hedge
  unfold filterChanged
  rw [if_neg (by simpa [List.isEmpty_iff] using hcne)]
  refine filter_idxOf_mono plan _ u.path v.path ?_ ?_ hidx
  · exact List.mem_filter.mpr ⟨hup, by simpa using hucs⟩
  · exact List.mem_filter.mpr ⟨hvp, by simpa using hvcs⟩

/-- Witness for C7 at the test scenario: both `stack` and its dependency
`stack2` changed; the filtered plan keeps `stack2` first. -/
theorem filterChanged_preserves_order_witness :
    idxOf (filterChanged ["stack2", "stack"] ["stack", "stack2"]) "stack2" <
      idxOf (filterChanged ["stack2", "stack"] ["stack", "stack2"]) "stack" :=
  filterChanged_preserves_order
    [⟨"stack2", []⟩, ⟨"stack", ["stack2"]⟩] ["stack2", "stack"] ["stack", "stack2"]
    ⟨"stack2", []⟩ ⟨"stack", ["stack2"]⟩
    (by decide) (by decide) (by decide) (by decide) (by decide)
    (by decide) (by decide) (by decide)

/-! ## Claim C8: cloud status filter -/

/-- Deployment status of a stack as reported by the cloud service. -/
inductive DeploymentStatus where
  | ok
  | failed
deriving DecidableEq, Repr

/-- Drift status of a stack as reported by the cloud service. -/
inductive DriftStatus where
  | ok
  | drifted
deriving DecidableEq, Repr

/-- Modelled from the spec (section 6): the externally reported status of a
stack, a deployment/drift status pair (the health component of the triple is
derived from these two). -/
structure CloudState where
  deployment : DeploymentStatus
  drift : DriftStatus
deriving DecidableEq, Repr

/-- Modelled from the spec: "unhealthy" means failed deployment OR drifted. -/
def isUnhealthy (st : CloudState) : Bool :=
  st.deployment == .failed || st.drift == .drifted

/-- Modelled from the spec: the Selection Filter composed with a cloud
status filter restricts the listing to the stacks whose externally reported
status matches the requested filter; here the `unhealthy` filter. -/
def filterCloudUnhealthy (plan : List String) (statusOf : String → CloudState) :
    List String :=
  plan.filter (fun p => isUnhealthy (statusOf p))

/-- C8: under `--cloud-status=unhealthy` the listing contains exactly the
stacks whose reported status is failed deployment or drifted; a stack whose
deployment and drift statuses are both OK is never listed. -/
theorem filterCloudUnhealthy_spec (plan : List String)
    (statusOf : String → CloudState) (x : String) :
    x ∈ filterCloudUnhealthy plan statusOf ↔
      x ∈ plan ∧
        ((statusOf x).deployment = .failed ∨ (statusOf x).drift = .drifted) := by
  unfold filterCloudUnhealthy isUnhealthy
  rw [List.mem_filter]
  simp

/-! ## Claim C9: code generation never overwrites manual code -/

/-- The terramate generation header (source `part_000:235`). -/
def codeHeader : String := "// GENERATED BY TERRAMATE: DO NOT EDIT"

/-- `AddHeader` (source `part_000:229-233`): prepend the header and a blank
line to generated code. -/
def AddHeader (code : String) : String := codeHeader ++ "\n\n" ++ code

/-- Byte-wise prefix test on character lists. -/
def listStarts : List Char → List Char → Bool
  | [], _ => true
  | _ :: _, [] => false
  | a :: hs, b :: cs => a == b && listStarts hs cs

/-- Go `strings.HasPrefix(s, h)`: does `s` start with `h`? -/
def strStarts (h s : String) : Bool := listStarts h.data s.data

/-- Outcome of the overwrite check (the stat/read I/O failures of the source
are not modelled). -/
inductive CheckResult where
  | ok
  | manualCodeExists
deriving DecidableEq, Repr

/-- `checkFileCanBeOverwritten` (source `part_000:281-301`): an absent file
can be written; an existing file may be overwritten only when its content
starts with the terramate header, otherwise `ErrManualCodeExists`. -/
def checkFileCanBeOverwritten (existing : Option String) : CheckResult :=
  match existing with
  | none => .ok
  | some code => if strStarts codeHeader code then .ok else .manualCodeExists

theorem listStarts_append (h t : List Char) : listStarts h (h ++ t) = true := by
  induction h with
  | nil => rfl
  | cons a hs ih => simp [listStarts, ih]

/-- C9: the overwrite check fails with `ErrManualCodeExists` for every
existing file whose content does not begin with the exact header line, and
every file written through `AddHeader` begins with that header, so a file
written by one generation run always passes the overwrite check of the next
run. -/
theorem generation_header_roundtrip :
    (∀ code : String, strStarts codeHeader code = false →
      checkFileCanBeOverwritten (some code) = .manualCodeExists) ∧
    (∀ code : String, checkFileCanBeOverwritten (some (AddHeader code)) = .ok) := by
  constructor
  · intro code h
    simp [checkFileCanBeOverwritten, h]
  · intro code
    have hdata : (AddHeader code).data = codeHeader.data ++ ('\n' :: '\n' :: code.data) := by
      show ((codeHeader ++ "\n\n") ++ code).data = _
      have happ : ∀ a b : String, (a ++ b).data = a.data ++ b.data := fun a b => rfl
      rw [happ, happ, List.append_assoc]
      rfl
    have : strStarts codeHeader (AddHeader code) = true := by
      rw [strStarts, hdata]
      exact listStarts_append codeHeader.data ('\n' :: '\n' :: code.data)
    simp [checkFileCanBeOverwritten, this]

/-- Witness for C9: a manual file is refused, a generated file is accepted. -/
theorem generation_header_roundtrip_witness :
    checkFileCanBeOverwritten (some "# manual terraform code") = .manualCodeExists ∧
    checkFileCanBeOverwritten (some (AddHeader "locals")) = .ok :=
  ⟨generation_header_roundtrip.1 "# manual terraform code" (by decide),
    generation_header_roundtrip.2 "locals"⟩

/-! ## Claim C10: FindTokenSequence -/

/-- An `hclwrite` token: its type and its bytes (source `part_001`). -/
structure Token where
  ttype : Nat
  bytes : List Nat
deriving DecidableEq, Repr

/-- `TokenEquals` (source `part_001:48-52`): two tokens compare equal when
both their type and their bytes coincide. -/
def TokenEquals (token1 token2 : Token) : Bool :=
  token1.ttype == token2.ttype && token1.bytes == token2.bytes

theorem tokenEquals_iff {t s : Token} : TokenEquals t s = true ↔ t = s := by
  cases t; cases s
  simp [TokenEquals, Token.mk.injEq]

/-- The inner loop of `FindTokenSequence` at one start position: compare the
sequence element-wise against the tokens from this position on and report
the first deviation.  Running past the end of the token list (`overrun`)
aborts the whole search in the source (`break searchMatch`); a content
mismatch (`miss`) moves the outer loop on (`continue searchMatch`). -/
inductive ProbeResult where
  | hit
  | miss
  | overrun
deriving DecidableEq, Repr

def probe : List Token → List Token → ProbeResult
  | _, [] => .hit
  | [], _ :: _ => .overrun
  | t :: ts, s :: ss => if TokenEquals t s then probe ts ss else .miss

/-- The outer loop of `FindTokenSequence`: try each start position in order. -/
def findFrom (seq : List Token) : List Token → Nat → Option Nat
  | [], i =>
    match probe [] seq with
    | .hit => some i
    | _ => none
  | t :: ts, i =>
    match probe (t :: ts) seq with
    | .hit => some i
    | .overrun => none
    | .miss => findFrom seq ts (i + 1)

/-- `FindTokenSequence` (source `part_001:54-77`): the first position where
the token sequence occurs, content included, or `(0, false)`. -/
def FindTokenSequence (tokens : List Token) (seq : List Token) : Nat × Bool :=
  if seq.isEmpty then (0, false)
  else
    match findFrom seq tokens 0 with
    | some i => (i, true)
    | none => (0, false)

/-- The sequence occurs at position `i` of the token list: the slice of
tokens starting at `i` of the sequence's length equals the sequence
element-wise (type and bytes, by `tokenEquals_iff`). -/
def SeqMatchAt (tokens seq : List Token) (i : Nat) : Prop :=
  (tokens.drop i).take seq.length = seq

instance (tokens seq : List Token) (i : Nat) : Decidable (SeqMatchAt tokens seq i) :=
  inferInstanceAs (Decidable ((tokens.drop i).take seq.length = seq))

theorem probe_hit_iff : ∀ ts seq : List Token,
    probe ts seq = .hit ↔ ∃ rest, ts = seq ++ rest
  | ts, [] => by simp [probe]
  | [], s :: ss => by
    simp only [probe]
    constructor
    · intro h; cases h
    · rintro ⟨rest, h⟩; cases h
  | t :: ts, s :: ss => by
    simp only [probe]
    by_cases he : TokenEquals t s = true
    · rw [if_pos he]
      rw [probe_hit_iff ts ss]
      have hts : t = s := tokenEquals_iff.mp he
      subst hts
      constructor
      · rintro ⟨rest, h⟩
        exact ⟨rest, by rw [List.cons_append, h]⟩
      · rintro ⟨rest, h⟩
        exact ⟨rest, by exact (List.cons.inj h).2⟩
    · rw [if_neg he]
      constructor
      · intro h; cases h
      · rintro ⟨rest, h⟩
        obtain ⟨h1, _⟩ := List.cons.inj h
        exact (he (tokenEquals_iff.mpr h1)).elim

theorem probe_overrun_length : ∀ ts seq : List Token,
    probe ts seq = .overrun → ts.length < seq.length
  | ts, [] => by simp [probe]
  | [], s :: ss => by simp [probe]
  | t :: ts, s :: ss => by
    simp only [probe]
    by_cases he : TokenEquals t s = true
    · rw [if_pos he]
      intro h
      have := probe_overrun_length ts ss h
      simpa using this
    · rw [if_neg he]
      intro h; cases h

theorem matchAt_zero_iff {ts seq : List Token} :
    SeqMatchAt ts seq 0 ↔ ∃ rest, ts = seq ++ rest := by
  unfold SeqMatchAt
  rw [List.drop_zero]
  constructor
  · intro h
    refine ⟨ts.drop seq.length, ?_⟩
    conv_lhs => rw [← List.take_append_drop seq.length ts]
    rw [h]
  · rintro ⟨rest, h⟩
    subst h
    exact List.take_left seq rest

theorem matchAt_short {ts seq : List Token} (h : ts.length < seq.length) (d : Nat) :
    ¬ SeqMatchAt ts seq d := by
  intro hm
  unfold SeqMatchAt at hm
  have h1 : ((ts.drop d).take seq.length).length = seq.length := by rw [hm]
  rw [List.length_take, List.length_drop] at h1
  omega

theorem matchAt_succ {t : Token} {ts seq : List Token} (d : Nat) :
    SeqMatchAt (t :: ts) seq (d + 1) ↔ SeqMatchAt ts seq d := by
  unfold SeqMatchAt
  rw [List.drop_succ_cons]

theorem findFrom_some {seq : List Token} :
    ∀ (ts : List Token) (i r : Nat), findFrom seq ts i = some r →
      ∃ d, r = i + d ∧ SeqMatchAt ts seq d ∧ ∀ d' < d, ¬ SeqMatchAt ts seq d' := by
  intro ts
  induction ts with
  | nil =>
    intro i r h
    simp only [findFrom] at h
    cases hp : probe [] seq with
    | hit =>
      rw [hp] at h
      refine ⟨0, by simpa using (Option.some.inj h).symm, ?_, by omega⟩
      exact matchAt_zero_iff.mpr ((probe_hit_iff [] seq).mp hp)
    | miss => rw [hp] at h; cases h
    | overrun => rw [hp] at h; cases h
  | cons t ts ih =>
    intro i r h
    simp only [findFrom] at h
    cases hp : probe (t :: ts) seq with
    | hit =>
      rw [hp] at h
      refine ⟨0, by simpa using (Option.some.inj h).symm, ?_, by omega⟩
      exact matchAt_zero_iff.mpr ((probe_hit_iff (t :: ts) seq).mp hp)
    | overrun => rw [hp] at h; cases h
    | miss =>
      rw [hp] at h
      obtain ⟨d, hd, hmatch, hmin⟩ := ih (i + 1) r h
      refine ⟨d + 1, by omega, (matchAt_succ d).mpr hmatch, ?_⟩
      intro d' hd'
      cases d' with
      | zero =>
        intro hm
        have := matchAt_zero_iff.mp hm
        rw [← probe_hit_iff] at this
        rw [hp] at this
        cases this
      | succ d'' =>
        rw [matchAt_succ d'']
        exact hmin d'' (by omega)

theorem findFrom_none {seq : List Token} :
    ∀ (ts : List Token) (i : Nat), findFrom seq ts i = none →
      ∀ d, ¬ SeqMatchAt ts seq d := by
  intro ts
  induction ts with
  | nil =>
    intro i h d
    intro hm
    unfold SeqMatchAt at hm
    simp only [findFrom] at h
    cases hp : probe [] seq with
    | hit => rw [hp] at h; cases h
    | miss =>
      cases hs : seq with
      | nil => rw [hs] at hp; simp [probe] at hp
      | cons s ss =>
        rw [hs] at hp; simp [probe] at hp
    | overrun =>
      have hlen := probe_overrun_length [] seq hp
      exact matchAt_short hlen d (by unfold SeqMatchAt; exact hm)
  | cons t ts ih =>
    intro i h d
    simp only [findFrom] at h
    cases hp : probe (t :: ts) seq with
    | hit => rw [hp] at h; cases h
    | overrun =>
      have hlen := probe_overrun_length (t :: ts) seq hp
      exact matchAt_short hlen d
    | miss =>
      rw [hp] at h
      cases d with
      | zero =>
        intro hm
        have := matchAt_zero_iff.mp hm
        rw [← probe_hit_iff] at this
        rw [hp] at this
        cases this
      | succ d' =>
        rw [matchAt_succ d']
        exact ih (i + 1) h d'

/-- C10: `FindTokenSequence` returns `(0, false)` for every empty search
sequence; for a non-empty sequence it returns `(i, true)` only when the
tokens at positions `i .. i+len(seq)-1` equal the sequence element-wise in
type and bytes with `i` the smallest such index, and it returns `(0, false)`
when the sequence occurs nowhere in the token list. -/
theorem findTokenSequence_spec :
    (∀ tokens : List Token, FindTokenSequence tokens [] = (0, false)) ∧
    (∀ (tokens seq : List Token) (i : Nat),
      FindTokenSequence tokens seq = (i, true) →
      SeqMatchAt tokens seq i ∧ ∀ i' < i, ¬ SeqMatchAt tokens seq i') ∧
    (∀ tokens seq : List Token, seq ≠ [] → (∀ i, ¬ SeqMatchAt tokens seq i) →
      FindTokenSequence tokens seq = (0, false)) := by
  refine ⟨fun tokens => by simp [FindTokenSequence], ?_, ?_⟩
  · intro tokens seq i h
    unfold FindTokenSequence at h
    by_cases hs : seq.isEmpty = true
    · rw [if_pos hs] at h
      cases (Prod.mk.injEq _ _ _ _ ▸ h).2
    · rw [if_neg hs] at h
      cases hf : findFrom seq tokens 0 with
      | none =>
        rw [hf] at h
        cases (Prod.mk.injEq _ _ _ _ ▸ h).2
      | some r =>
        rw [hf] at h
        obtain ⟨d, hd, hmatch, hmin⟩ := findFrom_some tokens 0 r hf
        have hri : r = i := (Prod.mk.injEq _ _ _ _ ▸ h).1
        subst hri
        subst hd
        simpa using ⟨hmatch, fun i' hi' => hmin i' (by omega)⟩
  · intro tokens seq hne hnm
    unfold FindTokenSequence
    rw [if_neg (by simpa [List.isEmpty_iff] using hne)]
    cases hf : findFrom seq tokens 0 with
    | none => rfl
    | some r =>
      obtain ⟨d, _, hmatch, _⟩ := findFrom_some tokens 0 r hf
      exact absurd hmatch (hnm d)

/-- Witness for C10: the sequence `[B, C]` is found at position 1 of
`[A, B, C]`, and position 0 does not match. -/
theorem findTokenSequence_spec_witness :
    SeqMatchAt [⟨1, [10]⟩, ⟨2, [20]⟩, ⟨3, [30]⟩] [⟨2, [20]⟩, ⟨3, [30]⟩] 1 ∧
      ∀ i' < 1, ¬ SeqMatchAt [⟨1, [10]⟩, ⟨2, [20]⟩, ⟨3, [30]⟩] [⟨2, [20]⟩, ⟨3, [30]⟩] i' :=
  findTokenSequence_spec.2.1 [⟨1, [10]⟩, ⟨2, [20]⟩, ⟨3, [30]⟩]
    [⟨2, [20]⟩, ⟨3, [30]⟩] 1 (by decide)

end Terramate
